import Mathlib

/-!
# Verification of the symbolic-algebra engine

A shallow embedding of `symbolic_algebra.py`: the expression tree
(`Num`, `Var` and the five binary-operation classes), the renderer
(`__str__`), the evaluator (`eval`), the differentiator (`deriv`), the
simplifier (`simplify`), the tokenizer (`tokenize` with its `case`
clean-up), the `**` token fusion done by `expression`, and the
recursive-descent parser (`parse` / `parse_expression`).

Python floats are modelled by exact rationals (`ℚ`); claims about
literals are stated modulo floating-point formatting, as the spec puts
it.  Python exceptions are modelled by explicit error results
(`PyErr`): `NameError` from `BinOp.eval`, `ZeroDivisionError` from
rational division by zero and from `0.0 ** negative`, and a marker
`nonRationalPow` for the one place the rational model cannot follow a
float power (non-integer exponents, whose result is an irrational or
complex float).  No claim exercises that marker.
-/

namespace SymbolicAlgebra

/-- The expression tree.  `Num` and `Var` are the leaf classes of the
source; `Add`, `Sub`, `Mul`, `Div`, `Pow` are the `BinOp` subclasses.
Python `__eq__` on these classes is exactly structural equality:
`Num.__eq__` compares the numeric values, `Var.__eq__` the names, and
`BinOp.__eq__` requires the same class and equal children. -/
inductive Expression where
  | Num (n : ℚ)
  | Var (name : String)
  | Add (left right : Expression)
  | Sub (left right : Expression)
  | Mul (left right : Expression)
  | Div (left right : Expression)
  | Pow (left right : Expression)
deriving DecidableEq, Repr

/-- The per-class `precedence` attribute (`Num`/`Var` 100, `Add`/`Sub` 5,
`Mul`/`Div`/`Pow` 10). -/
def precedence : Expression → Nat
  | .Num _ => 100
  | .Var _ => 100
  | .Add _ _ => 5
  | .Sub _ _ => 5
  | .Mul _ _ => 10
  | .Div _ _ => 10
  | .Pow _ _ => 10

/-- Python exceptions that the modelled code can raise, plus the
`nonRationalPow` marker for float powers the rational model cannot
represent (see the file comment). -/
inductive PyErr where
  | nameError
  | zeroDivisionError
  | nonRationalPow
deriving DecidableEq, Repr

/-- Result of a Python `**` on two floats. -/
inductive PowR where
  | val (q : ℚ)
  | exn (k : PyErr)
deriving DecidableEq, Repr

/-- Python `a ** c` on floats: for an integer exponent it is exact
(`0.0 ** 0.0 = 1.0`, `0.0 ** negative` raises `ZeroDivisionError`);
for a non-integer exponent the float result is irrational or complex,
which the rational model marks with `nonRationalPow`. -/
def pyPow (a c : ℚ) : PowR :=
  if c.den = 1 then
    if a = 0 ∧ c.num < 0 then .exn .zeroDivisionError
    else .val (a ^ c.num)
  else .exn .nonRationalPow

/-- Result of `eval`: a float, Python `None` (what `Var.eval` returns
for an unbound name), or a raised exception. -/
inductive EvalResult where
  | val (q : ℚ)
  | pyNone
  | exn (k : PyErr)
deriving DecidableEq, Repr

/-- `BinOp.eval`: evaluate the left child, then the right child
(exceptions propagate in that order), raise `NameError` if either came
out `None`, otherwise apply the operator's `operate`. -/
def binCombine (lv rv : EvalResult) (f : ℚ → ℚ → EvalResult) : EvalResult :=
  match lv with
  | .exn k => .exn k
  | .pyNone =>
    match rv with
    | .exn k => .exn k
    | _ => .exn .nameError
  | .val a =>
    match rv with
    | .exn k => .exn k
    | .pyNone => .exn .nameError
    | .val c => f a c

/-- `eval` with a bindings dictionary (`assignments.get` is modelled by
an `Option`-valued lookup).  `Num.eval` returns the value, `Var.eval`
returns the binding or `None`, `BinOp.eval` is `binCombine` with the
subclass's `operate`. -/
def eval : Expression → (String → Option ℚ) → EvalResult
  | .Num n, _ => .val n
  | .Var s, b =>
    match b s with
    | some q => .val q
    | none => .pyNone
  | .Add l r, b => binCombine (eval l b) (eval r b) (fun a c => .val (a + c))
  | .Sub l r, b => binCombine (eval l b) (eval r b) (fun a c => .val (a - c))
  | .Mul l r, b => binCombine (eval l b) (eval r b) (fun a c => .val (a * c))
  | .Div l r, b => binCombine (eval l b) (eval r b)
      (fun a c => if c = 0 then .exn .zeroDivisionError else .val (a / c))
  | .Pow l r, b => binCombine (eval l b) (eval r b)
      (fun a c => match pyPow a c with
        | .val q => .val q
        | .exn k => .exn k)

/-- Result of `simplify`: an expression, or a raised exception
(constant folding can divide by zero or hit a bad power). -/
inductive SimpResult where
  | ok (e : Expression)
  | exn (k : PyErr)
deriving DecidableEq, Repr

/-- `Add.simplify` after both children have been simplified. -/
def addRule (a b : Expression) : SimpResult :=
  if a = .Num 0 ∧ b = .Num 0 then .ok (.Num 0)
  else if a = .Num 0 then .ok b
  else if b = .Num 0 then .ok a
  else
    match a, b with
    | .Num x, .Num y => .ok (.Num (x + y))
    | _, _ => .ok (.Add a b)

/-- `Sub.simplify` after both children have been simplified. -/
def subRule (a b : Expression) : SimpResult :=
  if a = .Num 0 ∧ b = .Num 0 then .ok (.Num 0)
  else if b = .Num 0 then .ok a
  else
    match a, b with
    | .Num x, .Num y => .ok (.Num (x - y))
    | _, _ => .ok (.Sub a b)

/-- `Mul.simplify` after both children have been simplified. -/
def mulRule (a b : Expression) : SimpResult :=
  if a = .Num 0 ∨ b = .Num 0 then .ok (.Num 0)
  else if a = .Num 1 then .ok b
  else if b = .Num 1 then .ok a
  else
    match a, b with
    | .Num x, .Num y => .ok (.Num (x * y))
    | _, _ => .ok (.Mul a b)

/-- Folding `Num / Num` in `Div.simplify`: Python float division raises
`ZeroDivisionError` when the right value is zero. -/
def divFold (x y : ℚ) : SimpResult :=
  if y = 0 then .exn .zeroDivisionError else .ok (.Num (x / y))

/-- `Div.simplify` after both children have been simplified. -/
def divRule (a b : Expression) : SimpResult :=
  if a = .Num 0 then .ok (.Num 0)
  else if b = .Num 1 then .ok a
  else
    match a, b with
    | .Num x, .Num y => divFold x y
    | _, _ => .ok (.Div a b)

/-- The `isinstance(r_simpl, Var) or (isinstance(r_simpl, Num) and
r_simpl.n > 0)` test of `Pow.simplify`. -/
def powExponentOk : Expression → Bool
  | .Var _ => true
  | .Num y => decide (0 < y)
  | _ => false

/-- Folding `Num ** Num` in `Pow.simplify`: wrap the float power,
letting its exception propagate. -/
def powFold (x y : ℚ) : SimpResult :=
  match pyPow x y with
  | .val q => .ok (.Num q)
  | .exn k => .exn k

/-- `Pow.simplify` after both children have been simplified. -/
def powRule (a b : Expression) : SimpResult :=
  if b = .Num 0 then .ok (.Num 1)
  else if b = .Num 1 then .ok a
  else if a = .Num 0 ∧ powExponentOk b then .ok (.Num 0)
  else
    match a, b with
    | .Num x, .Num y => powFold x y
    | _, _ => .ok (.Pow a b)

/-- Each `BinOp.simplify` first simplifies the left child, then the
right child (exceptions propagate in that order), then applies the
subclass's rule chain. -/
def simpBin (ls rs : SimpResult) (rule : Expression → Expression → SimpResult) : SimpResult :=
  match ls with
  | .exn k => .exn k
  | .ok a =>
    match rs with
    | .exn k => .exn k
    | .ok b => rule a b

/-- `simplify`.  `Symbol.simplify` (leaves) returns the node itself. -/
def simplify : Expression → SimpResult
  | .Num n => .ok (.Num n)
  | .Var s => .ok (.Var s)
  | .Add l r => simpBin (simplify l) (simplify r) addRule
  | .Sub l r => simpBin (simplify l) (simplify r) subRule
  | .Mul l r => simpBin (simplify l) (simplify r) mulRule
  | .Div l r => simpBin (simplify l) (simplify r) divRule
  | .Pow l r => simpBin (simplify l) (simplify r) powRule

/-- `deriv`: symbolic derivative with respect to a variable name.
`Pow.deriv` builds `Mul(Mul(r, Pow(l, Sub(r, Num 1))), deriv l)` — the
`self.right - 1` of the source is `Sub(right, Num(1))` via operator
overloading and `BinOp.__init__` coercion. -/
def deriv : Expression → String → Expression
  | .Num _, _ => .Num 0
  | .Var s, wrt => if s = wrt then .Num 1 else .Num 0
  | .Add l r, wrt => .Add (deriv l wrt) (deriv r wrt)
  | .Sub l r, wrt => .Sub (deriv l wrt) (deriv r wrt)
  | .Mul l r, wrt => .Add (.Mul l (deriv r wrt)) (.Mul r (deriv l wrt))
  | .Div l r, wrt =>
      .Div (.Sub (.Mul r (deriv l wrt)) (.Mul l (deriv r wrt))) (.Mul r r)
  | .Pow l r, wrt => .Mul (.Mul r (.Pow l (.Sub r (.Num 1)))) (deriv l wrt)

/-- Node count of a tree. -/
def size : Expression → Nat
  | .Num _ => 1
  | .Var _ => 1
  | .Add l r => 1 + size l + size r
  | .Sub l r => 1 + size l + size r
  | .Mul l r => 1 + size l + size r
  | .Div l r => 1 + size l + size r
  | .Pow l r => 1 + size l + size r

/-- Names of the variables occurring in a tree. -/
def varsIn : Expression → List String
  | .Num _ => []
  | .Var s => [s]
  | .Add l r => varsIn l ++ varsIn r
  | .Sub l r => varsIn l ++ varsIn r
  | .Mul l r => varsIn l ++ varsIn r
  | .Div l r => varsIn l ++ varsIn r
  | .Pow l r => varsIn l ++ varsIn r

/-- `true` when the tree contains no `Div` and no `Pow` node. -/
def noDivPow : Expression → Bool
  | .Num _ => true
  | .Var _ => true
  | .Add l r => noDivPow l && noDivPow r
  | .Sub l r => noDivPow l && noDivPow r
  | .Mul l r => noDivPow l && noDivPow r
  | .Div _ _ => false
  | .Pow _ _ => false

/-- `true` exactly on the `BinOp` nodes. -/
def isBinOp : Expression → Bool
  | .Num _ => false
  | .Var _ => false
  | _ => true

/-- The character for a decimal digit value. -/
def digitChar (d : Nat) : Char := Char.ofNat (48 + d)

/-- Base-10 digits of `m`, least significant first, with explicit fuel
(any fuel of at least `m` gives `Nat.digits 10 m`; the fuel only makes
the recursion structural). -/
def digitsFuel : Nat → Nat → List Nat
  | 0, _ => []
  | fuel + 1, m => if m = 0 then [] else m % 10 :: digitsFuel fuel (m / 10)

/-- Decimal digit string of a natural number, most significant first. -/
def natDigitsStr (m : Nat) : String :=
  if m = 0 then "0" else ⟨(digitsFuel m m).reverse.map digitChar⟩

/-- Decimal string of an integer. -/
def intStr (n : Int) : String :=
  if n < 0 then "-" ++ natDigitsStr n.natAbs else natDigitsStr n.toNat

/-- Models `Num.__str__`, i.e. Python `str(float)`.  An integer-valued
float prints as the integer digits followed by `.0`, exactly as Python
prints it.  For a non-integer value Python prints the shortest decimal
that rounds back to the float — a floating-point formatting detail the
rational model does not reproduce; it uses an exact `num/den` form
instead.  Every claim about literals compares them modulo
floating-point formatting and only exercises integer values. -/
def numStr (q : ℚ) : String :=
  if q.den = 1 then intStr q.num ++ ".0"
  else intStr q.num ++ "/" ++ natDigitsStr q.den

/-- The parenthesization of `BinOp.__str__`: wrap the left child when
its precedence is lower, or equal with the parent's `left_parens` flag
set (`Pow` only); wrap the right child when its precedence is lower,
or equal with the parent's `right_parens` flag set (`Sub`, `Div`). -/
def renderBin (selfPrec : Nat) (lp rp : Bool) (op : String)
    (lPrec rPrec : Nat) (ls rs : String) : String :=
  let retL := if lPrec < selfPrec ∨ (lPrec ≤ selfPrec ∧ lp) then "(" ++ ls ++ ")" else ls
  let retR :=
    if rPrec < selfPrec then "(" ++ rs ++ ")"
    else if rp ∧ rPrec = selfPrec then "(" ++ rs ++ ")"
    else rs
  retL ++ " " ++ op ++ " " ++ retR

/-- `__str__` over the whole tree: leaves print their value or name,
`BinOp` prints `left op right` with `renderBin`'s parenthesization. -/
def render : Expression → String
  | .Num q => numStr q
  | .Var s => s
  | .Add l r => renderBin 5 false false "+" (precedence l) (precedence r) (render l) (render r)
  | .Sub l r => renderBin 5 false true "-" (precedence l) (precedence r) (render l) (render r)
  | .Mul l r => renderBin 10 false false "*" (precedence l) (precedence r) (render l) (render r)
  | .Div l r => renderBin 10 false true "/" (precedence l) (precedence r) (render l) (render r)
  | .Pow l r => renderBin 10 true false "**" (precedence l) (precedence r) (render l) (render r)

/-- The scan loop of `tokenize`, over the characters of `inp_str + "|"`.
Spaces and closing parentheses are skipped without flushing the pending
numeric run; digits and `.` extend the run; `-` extends the run exactly
when the next character of the *original* string is a digit or `.`
(indexing past the end is Python's `IndexError`, modelled by `none`);
any other character flushes the pending run and is emitted alone. -/
def tokCore (orig : List Char) : List Char → Nat → String → List String → Option (List String)
  | [], _, _, acc => some acc
  | c :: rest, i, numAdd, acc =>
    if c = ' ' ∨ c = ')' then tokCore orig rest (i + 1) numAdd acc
    else if c.isDigit ∨ c = '.' then tokCore orig rest (i + 1) (numAdd.push c) acc
    else if c = '-' then
      match orig.get? (i + 1) with
      | none => none
      | some d =>
        if d.isDigit ∨ d = '.' then tokCore orig rest (i + 1) (numAdd.push c) acc
        else tokCore orig rest (i + 1) ""
          ((if numAdd = "" then acc else acc ++ [numAdd]) ++ [⟨[c]⟩])
    else tokCore orig rest (i + 1) ""
      ((if numAdd = "" then acc else acc ++ [numAdd]) ++ [⟨[c]⟩])

/-- The source's `case` helper: pop the sentinel token, then drop the
first token if it is empty.  Popping an empty list, or indexing into
the emptied list, is an `IndexError` (`none`). -/
def caseTok (t : List String) : Option (List String) :=
  match t with
  | [] => none
  | _ =>
    match t.dropLast with
    | [] => none
    | x :: xs => some (if x = "" then xs else x :: xs)

/-- `tokenize`: run the scan over `inp_str + "|"` and clean up. -/
def tokenize (inp : String) : Option (List String) :=
  match tokCore inp.data (inp.data ++ ['|']) 0 "" [] with
  | none => none
  | some toks => caseTok toks

/-- The token-rewriting loop of `expression`, which fuses two adjacent
`*` tokens into one `**`.  For a `*` token it inspects `tokens[i+1]`
(an `IndexError`, hence `none`, when `*` is last) and — via Python's
negative indexing — `tokens[i-1]`, which for `i = 0` is the *last*
element. -/
def mergeGo (t : List String) : Nat → Nat → Option (List String)
  | 0, _ => some []
  | fuel + 1, i =>
    match t.get? i with
    | none => some []
    | some token =>
      if token = "*" then
        match t.get? (i + 1) with
        | none => none
        | some nxt =>
          if nxt = "*" then mergeGo t fuel (i + 1)
          else
            let prev := if i = 0 then t.getLast? else t.get? (i - 1)
            if prev = some "*" then (mergeGo t fuel (i + 1)).map (fun rest => "**" :: rest)
            else (mergeGo t fuel (i + 1)).map (fun rest => token :: rest)
      else (mergeGo t fuel (i + 1)).map (fun rest => token :: rest)

/-- The `**` fusion pass of `expression` over a whole token list. -/
def mergeStars (t : List String) : Option (List String) :=
  mergeGo t t.length 0

/-- Value of a digit string, most significant first. -/
def digitsValN (l : List Char) : Nat :=
  l.foldl (fun a c => a * 10 + (c.toNat - 48)) 0

/-- Python `float(token)` on an unsigned body: digits, optionally
followed by `.` and more digits, at least one digit in total; anything
else is a `ValueError` (`none`).  The value `intpart.fracpart` is the
exact rational `(intpart * 10^k + fracpart) / 10^k`. -/
def parseDec (l : List Char) : Option ℚ :=
  let ip := l.takeWhile Char.isDigit
  match l.dropWhile Char.isDigit with
  | [] => if ip = [] then none else some (mkRat (digitsValN ip) 1)
  | '.' :: frac =>
    if frac.all Char.isDigit ∧ (ip ≠ [] ∨ frac ≠ []) then
      some (mkRat (digitsValN ip * 10 ^ frac.length + digitsValN frac) (10 ^ frac.length))
    else none
  | _ => none

/-- Python `float(token)`: an optional leading minus sign, then an
unsigned decimal body. -/
def parseFloat (s : String) : Option ℚ :=
  match s.data with
  | [] => none
  | c :: rest => if c = '-' then (parseDec rest).map (fun q => -q) else parseDec (c :: rest)

/-- The `symbol_dict_class` lookup: operator token to constructor;
a `KeyError` is `none`. -/
def symbolDictOf (s : String) : Option (Expression → Expression → Expression) :=
  if s = "+" then some .Add
  else if s = "-" then some .Sub
  else if s = "*" then some .Mul
  else if s = "/" then some .Div
  else if s = "**" then some .Pow
  else none

/-- `parse_expression(index)`: look at `tokens[index]`; a token whose
first character is `-`, a digit or `.` becomes a `Num` via `float`;
an alphabetic token becomes a `Var`; `(` parses a left expression, an
operator and a right expression (the closing parenthesis was dropped
by the tokenizer, so nothing is consumed for it).  Any failure —
`IndexError`, `ValueError`, `KeyError`, or the implicit `None` return
on an unexpected token — is `none`.  The fuel argument only bounds the
recursion depth; since every recursive call looks strictly further
into the token list, `tokens.length + 1` fuel never runs out before
the source would have failed. -/
def parseExprF (tokens : List String) : Nat → Nat → Option (Expression × Nat)
  | 0, _ => none
  | fuel + 1, index =>
    match tokens.get? index with
    | none => none
    | some token =>
      match token.data with
      | [] => none
      | c0 :: _ =>
        if c0 = '-' ∨ c0.isDigit ∨ c0 = '.' then
          match parseFloat token with
          | none => none
          | some q => some (.Num q, index + 1)
        else if token.data.all Char.isAlpha then
          some (.Var token, index + 1)
        else if token = "(" then
          match parseExprF tokens fuel (index + 1) with
          | none => none
          | some (leftExp, oppInd) =>
            match tokens.get? oppInd with
            | none => none
            | some op =>
              match symbolDictOf op with
              | none => none
              | some ctor =>
                match parseExprF tokens fuel (oppInd + 1) with
                | none => none
                | some (rightExp, rightParen) => some (ctor leftExp rightExp, rightParen)
        else none

/-- `parse`: run `parse_expression(0)` and discard the next-index,
ignoring any tokens it did not consume. -/
def parse (tokens : List String) : Option Expression :=
  match parseExprF tokens (tokens.length + 1) 0 with
  | some (e, _) => some e
  | none => none

/-- `expression`: tokenize, fuse `**`, parse. -/
def expression (s : String) : Option Expression :=
  match tokenize s with
  | none => none
  | some t =>
    match mergeStars t with
    | none => none
    | some t2 => parse t2

/-- Every variable of `e` is present in the bindings. -/
def allBound (e : Expression) (b : String → Option ℚ) : Bool :=
  (varsIn e).all fun s => (b s).isSome

/-- Some variable of `e` is absent from the bindings. -/
def hasUnbound (e : Expression) (b : String → Option ℚ) : Bool :=
  (varsIn e).any fun s => (b s).isNone

/-! ## Basic structural lemmas -/

lemma size_pos (e : Expression) : 1 ≤ size e := by
  cases e <;> simp only [size] <;> omega

lemma powFold_size {x y : ℚ} {e' : Expression} (h : powFold x y = .ok e') : size e' = 1 := by
  unfold powFold at h
  cases hp : pyPow x y <;> rw [hp] at h
  · simp only [SimpResult.ok.injEq] at h
    subst h
    rfl
  · cases h

lemma addRule_size {a b : Expression} {e' : Expression} (h : addRule a b = .ok e') :
    size e' ≤ 1 + size a + size b := by
  have hsa := size_pos a
  have hsb := size_pos b
  unfold addRule at h
  split_ifs at h <;>
    first
      | (simp only [SimpResult.ok.injEq] at h; subst h; simp only [size]; omega)
      | (cases a <;> cases b <;> simp only [SimpResult.ok.injEq] at h <;> subst h <;>
          simp only [size] <;> omega)

lemma subRule_size {a b : Expression} {e' : Expression} (h : subRule a b = .ok e') :
    size e' ≤ 1 + size a + size b := by
  have hsa := size_pos a
  have hsb := size_pos b
  unfold subRule at h
  split_ifs at h <;>
    first
      | (simp only [SimpResult.ok.injEq] at h; subst h; simp only [size]; omega)
      | (cases a <;> cases b <;> simp only [SimpResult.ok.injEq] at h <;> subst h <;>
          simp only [size] <;> omega)

lemma mulRule_size {a b : Expression} {e' : Expression} (h : mulRule a b = .ok e') :
    size e' ≤ 1 + size a + size b := by
  have hsa := size_pos a
  have hsb := size_pos b
  unfold mulRule at h
  split_ifs at h <;>
    first
      | (simp only [SimpResult.ok.injEq] at h; subst h; simp only [size]; omega)
      | (cases a <;> cases b <;> simp only [SimpResult.ok.injEq] at h <;> subst h <;>
          simp only [size] <;> omega)

lemma divFold_size {x y : ℚ} {e' : Expression} (h : divFold x y = .ok e') : size e' = 1 := by
  unfold divFold at h
  split_ifs at h
  first
    | rfl
    | (simp only [SimpResult.ok.injEq] at h; subst h; rfl)

lemma divRule_size {a b : Expression} {e' : Expression} (h : divRule a b = .ok e') :
    size e' ≤ 1 + size a + size b := by
  have hsa := size_pos a
  have hsb := size_pos b
  unfold divRule at h
  split_ifs at h <;>
    first
      | (simp only [SimpResult.ok.injEq] at h; subst h; simp only [size]; omega)
      | (cases a <;> cases b <;>
          first
            | (have hsz := divFold_size h; omega)
            | (simp only [SimpResult.ok.injEq] at h; subst h; simp only [size]; omega))

lemma powRule_size {a b : Expression} {e' : Expression} (h : powRule a b = .ok e') :
    size e' ≤ 1 + size a + size b := by
  have hsa := size_pos a
  have hsb := size_pos b
  unfold powRule at h
  split_ifs at h <;>
    first
      | (simp only [SimpResult.ok.injEq] at h; subst h; simp only [size]; omega)
      | (cases a <;> cases b <;>
          first
            | (have hsz := powFold_size h; omega)
            | (simp only [SimpResult.ok.injEq] at h; subst h; simp only [size]; omega))

lemma addRule_ok (a b : Expression) : ∃ e', addRule a b = .ok e' := by
  unfold addRule
  split_ifs <;> first | exact ⟨_, rfl⟩ | (cases a <;> cases b <;> exact ⟨_, rfl⟩)

lemma subRule_ok (a b : Expression) : ∃ e', subRule a b = .ok e' := by
  unfold subRule
  split_ifs <;> first | exact ⟨_, rfl⟩ | (cases a <;> cases b <;> exact ⟨_, rfl⟩)

lemma mulRule_ok (a b : Expression) : ∃ e', mulRule a b = .ok e' := by
  unfold mulRule
  split_ifs <;> first | exact ⟨_, rfl⟩ | (cases a <;> cases b <;> exact ⟨_, rfl⟩)

/-! ## Simplifier lemmas -/

lemma simplify_size_le : ∀ (e e' : Expression), simplify e = .ok e' → size e' ≤ size e := by
  intro e
  induction e with
  | Num n =>
    intro e' h
    simp only [simplify, SimpResult.ok.injEq] at h
    subst h
    exact le_refl _
  | Var s =>
    intro e' h
    simp only [simplify, SimpResult.ok.injEq] at h
    subst h
    exact le_refl _
  | Add l r ihl ihr =>
    intro e' h
    simp only [simplify] at h
    cases hsl : simplify l with
    | exn k => rw [hsl] at h; simp [simpBin] at h
    | ok a =>
      cases hsr : simplify r with
      | exn k => rw [hsl, hsr] at h; simp [simpBin] at h
      | ok b =>
        rw [hsl, hsr] at h
        simp only [simpBin] at h
        have h1 := ihl a hsl
        have h2 := ihr b hsr
        have h3 := addRule_size h
        simp only [size]
        omega
  | Sub l r ihl ihr =>
    intro e' h
    simp only [simplify] at h
    cases hsl : simplify l with
    | exn k => rw [hsl] at h; simp [simpBin] at h
    | ok a =>
      cases hsr : simplify r with
      | exn k => rw [hsl, hsr] at h; simp [simpBin] at h
      | ok b =>
        rw [hsl, hsr] at h
        simp only [simpBin] at h
        have h1 := ihl a hsl
        have h2 := ihr b hsr
        have h3 := subRule_size h
        simp only [size]
        omega
  | Mul l r ihl ihr =>
    intro e' h
    simp only [simplify] at h
    cases hsl : simplify l with
    | exn k => rw [hsl] at h; simp [simpBin] at h
    | ok a =>
      cases hsr : simplify r with
      | exn k => rw [hsl, hsr] at h; simp [simpBin] at h
      | ok b =>
        rw [hsl, hsr] at h
        simp only [simpBin] at h
        have h1 := ihl a hsl
        have h2 := ihr b hsr
        have h3 := mulRule_size h
        simp only [size]
        omega
  | Div l r ihl ihr =>
    intro e' h
    simp only [simplify] at h
    cases hsl : simplify l with
    | exn k => rw [hsl] at h; simp [simpBin] at h
    | ok a =>
      cases hsr : simplify r with
      | exn k => rw [hsl, hsr] at h; simp [simpBin] at h
      | ok b =>
        rw [hsl, hsr] at h
        simp only [simpBin] at h
        have h1 := ihl a hsl
        have h2 := ihr b hsr
        have h3 := divRule_size h
        simp only [size]
        omega
  | Pow l r ihl ihr =>
    intro e' h
    simp only [simplify] at h
    cases hsl : simplify l with
    | exn k => rw [hsl] at h; simp [simpBin] at h
    | ok a =>
      cases hsr : simplify r with
      | exn k => rw [hsl, hsr] at h; simp [simpBin] at h
      | ok b =>
        rw [hsl, hsr] at h
        simp only [simpBin] at h
        have h1 := ihl a hsl
        have h2 := ihr b hsr
        have h3 := powRule_size h
        simp only [size]
        omega

lemma simplify_ok_of_noDivPow : ∀ e : Expression, noDivPow e = true → ∃ e', simplify e = .ok e' := by
  intro e
  induction e with
  | Num n => intro _; exact ⟨_, rfl⟩
  | Var s => intro _; exact ⟨_, rfl⟩
  | Add l r ihl ihr =>
    intro h
    simp only [noDivPow, Bool.and_eq_true] at h
    obtain ⟨e1, h1⟩ := ihl h.1
    obtain ⟨e2, h2⟩ := ihr h.2
    obtain ⟨e3, h3⟩ := addRule_ok e1 e2
    exact ⟨e3, by simp [simplify, h1, h2, simpBin, h3]⟩
  | Sub l r ihl ihr =>
    intro h
    simp only [noDivPow, Bool.and_eq_true] at h
    obtain ⟨e1, h1⟩ := ihl h.1
    obtain ⟨e2, h2⟩ := ihr h.2
    obtain ⟨e3, h3⟩ := subRule_ok e1 e2
    exact ⟨e3, by simp [simplify, h1, h2, simpBin, h3]⟩
  | Mul l r ihl ihr =>
    intro h
    simp only [noDivPow, Bool.and_eq_true] at h
    obtain ⟨e1, h1⟩ := ihl h.1
    obtain ⟨e2, h2⟩ := ihr h.2
    obtain ⟨e3, h3⟩ := mulRule_ok e1 e2
    exact ⟨e3, by simp [simplify, h1, h2, simpBin, h3]⟩
  | Div l r ihl ihr => intro h; simp [noDivPow] at h
  | Pow l r ihl ihr => intro h; simp [noDivPow] at h

lemma mulRule_one (a : Expression) : mulRule a (.Num 1) = .ok a := by
  unfold mulRule
  split_ifs with h1 h2 h3
  · rcases h1 with h | h
    · rw [h]
    · exact absurd h (by decide)
  · rw [h2]
  · rfl
  · exact absurd rfl h3

lemma addRule_zero (a : Expression) : addRule a (.Num 0) = .ok a := by
  unfold addRule
  split_ifs with h1 h2 h3
  · rw [h1.1]
  · rw [h2]
  · rfl
  · exact absurd rfl h3

lemma powRule_zero (a : Expression) : powRule a (.Num 0) = .ok (.Num 1) := by
  unfold powRule
  rw [if_pos rfl]

/-! ## Evaluator lemmas -/

lemma bound_of_not_unbound {e : Expression} {b : String → Option ℚ}
    (h : hasUnbound e b = false) : ∀ s ∈ varsIn e, (b s).isSome = true := by
  intro s hs
  cases hbs : b s with
  | none =>
    rw [hasUnbound, List.any_eq_false] at h
    exact absurd (by simp [hbs]) (h s hs)
  | some q => simp

lemma eval_val_of_bound : ∀ (e : Expression) (b : String → Option ℚ), noDivPow e = true →
    (∀ s ∈ varsIn e, (b s).isSome = true) → ∃ q, eval e b = .val q := by
  intro e
  induction e with
  | Num n => exact fun b _ _ => ⟨n, rfl⟩
  | Var s =>
    intro b _ hb
    obtain ⟨q, hq⟩ := Option.isSome_iff_exists.mp (hb s (by simp [varsIn]))
    exact ⟨q, by simp [eval, hq]⟩
  | Add l r ihl ihr =>
    intro b h hb
    simp only [noDivPow, Bool.and_eq_true] at h
    obtain ⟨a, ha⟩ := ihl b h.1 fun s hs => hb s (by simp [varsIn, hs])
    obtain ⟨c, hc⟩ := ihr b h.2 fun s hs => hb s (by simp [varsIn, hs])
    exact ⟨a + c, by simp [eval, ha, hc, binCombine]⟩
  | Sub l r ihl ihr =>
    intro b h hb
    simp only [noDivPow, Bool.and_eq_true] at h
    obtain ⟨a, ha⟩ := ihl b h.1 fun s hs => hb s (by simp [varsIn, hs])
    obtain ⟨c, hc⟩ := ihr b h.2 fun s hs => hb s (by simp [varsIn, hs])
    exact ⟨a - c, by simp [eval, ha, hc, binCombine]⟩
  | Mul l r ihl ihr =>
    intro b h hb
    simp only [noDivPow, Bool.and_eq_true] at h
    obtain ⟨a, ha⟩ := ihl b h.1 fun s hs => hb s (by simp [varsIn, hs])
    obtain ⟨c, hc⟩ := ihr b h.2 fun s hs => hb s (by simp [varsIn, hs])
    exact ⟨a * c, by simp [eval, ha, hc, binCombine]⟩
  | Div l r ihl ihr => intro b h _; simp [noDivPow] at h
  | Pow l r ihl ihr => intro b h _; simp [noDivPow] at h

lemma eval_status : ∀ (e : Expression) (b : String → Option ℚ), noDivPow e = true →
    hasUnbound e b = true →
    (∃ s, e = .Var s ∧ eval e b = .pyNone) ∨ eval e b = .exn .nameError := by
  intro e
  induction e with
  | Num n => intro b _ hu; simp [hasUnbound, varsIn] at hu
  | Var s =>
    intro b _ hu
    simp only [hasUnbound, varsIn, List.any_cons, List.any_nil, Bool.or_false] at hu
    left
    refine ⟨s, rfl, ?_⟩
    cases hbs : b s with
    | none => simp [eval, hbs]
    | some q => simp [hbs] at hu
  | Add l r ihl ihr =>
    intro b h hu
    right
    simp only [noDivPow, Bool.and_eq_true] at h
    simp only [hasUnbound, varsIn, List.any_append, Bool.or_eq_true] at hu
    show binCombine (eval l b) (eval r b) _ = .exn .nameError
    cases hul : hasUnbound l b with
    | true =>
      rcases ihl b h.1 hul with ⟨s, hls, hpn⟩ | hexn
      · rw [hpn]
        cases hur : hasUnbound r b with
        | true =>
          rcases ihr b h.2 hur with ⟨t, hrt, hrn⟩ | hrexn
          · rw [hrn]; rfl
          · rw [hrexn]; rfl
        | false =>
          obtain ⟨q, hq⟩ := eval_val_of_bound r b h.2 (bound_of_not_unbound hur)
          rw [hq]
          rfl
      · rw [hexn]; rfl
    | false =>
      obtain ⟨a, ha⟩ := eval_val_of_bound l b h.1 (bound_of_not_unbound hul)
      have hur : hasUnbound r b = true := by
        rcases hu with hu | hu
        · rw [hasUnbound] at hul
          rw [hul] at hu
          cases hu
        · exact hu
      rcases ihr b h.2 hur with ⟨t, hrt, hrn⟩ | hrexn
      · rw [ha, hrn]; rfl
      · rw [ha, hrexn]; rfl
  | Sub l r ihl ihr =>
    intro b h hu
    right
    simp only [noDivPow, Bool.and_eq_true] at h
    simp only [hasUnbound, varsIn, List.any_append, Bool.or_eq_true] at hu
    show binCombine (eval l b) (eval r b) _ = .exn .nameError
    cases hul : hasUnbound l b with
    | true =>
      rcases ihl b h.1 hul with ⟨s, hls, hpn⟩ | hexn
      · rw [hpn]
        cases hur : hasUnbound r b with
        | true =>
          rcases ihr b h.2 hur with ⟨t, hrt, hrn⟩ | hrexn
          · rw [hrn]; rfl
          · rw [hrexn]; rfl
        | false =>
          obtain ⟨q, hq⟩ := eval_val_of_bound r b h.2 (bound_of_not_unbound hur)
          rw [hq]
          rfl
      · rw [hexn]; rfl
    | false =>
      obtain ⟨a, ha⟩ := eval_val_of_bound l b h.1 (bound_of_not_unbound hul)
      have hur : hasUnbound r b = true := by
        rcases hu with hu | hu
        · rw [hasUnbound] at hul
          rw [hul] at hu
          cases hu
        · exact hu
      rcases ihr b h.2 hur with ⟨t, hrt, hrn⟩ | hrexn
      · rw [ha, hrn]; rfl
      · rw [ha, hrexn]; rfl
  | Mul l r ihl ihr =>
    intro b h hu
    right
    simp only [noDivPow, Bool.and_eq_true] at h
    simp only [hasUnbound, varsIn, List.any_append, Bool.or_eq_true] at hu
    show binCombine (eval l b) (eval r b) _ = .exn .nameError
    cases hul : hasUnbound l b with
    | true =>
      rcases ihl b h.1 hul with ⟨s, hls, hpn⟩ | hexn
      · rw [hpn]
        cases hur : hasUnbound r b with
        | true =>
          rcases ihr b h.2 hur with ⟨t, hrt, hrn⟩ | hrexn
          · rw [hrn]; rfl
          · rw [hrexn]; rfl
        | false =>
          obtain ⟨q, hq⟩ := eval_val_of_bound r b h.2 (bound_of_not_unbound hur)
          rw [hq]
          rfl
      · rw [hexn]; rfl
    | false =>
      obtain ⟨a, ha⟩ := eval_val_of_bound l b h.1 (bound_of_not_unbound hul)
      have hur : hasUnbound r b = true := by
        rcases hu with hu | hu
        · rw [hasUnbound] at hul
          rw [hul] at hu
          cases hu
        · exact hu
      rcases ihr b h.2 hur with ⟨t, hrt, hrn⟩ | hrexn
      · rw [ha, hrn]; rfl
      · rw [ha, hrexn]; rfl
  | Div l r ihl ihr => intro b h _; simp [noDivPow] at h
  | Pow l r ihl ihr => intro b h _; simp [noDivPow] at h

/-! ## The claims about the evaluator -/

/-- C3, counterexample: evaluation does *not* follow IEEE semantics on
division by zero or a zero base with negative exponent — Python raises
`ZeroDivisionError` for both, instead of returning infinity. -/
theorem claim3_counterexample :
    eval (.Div (.Num 1) (.Num 0)) (fun _ => none) = .exn .zeroDivisionError ∧
    eval (.Pow (.Num 0) (.Num (-2))) (fun _ => none) = .exn .zeroDivisionError := by
  decide

/-- C3, amended: evaluation is total when every variable is bound *and*
no division or power appears; division by zero and `0.0 ** negative`
raise `ZeroDivisionError` (see the counterexample) rather than
producing infinity or NaN. -/
theorem claim3_eval_total_when_bound (e : Expression) (b : String → Option ℚ)
    (h1 : noDivPow e = true) (h2 : allBound e b = true) :
    ∃ q, eval e b = .val q := by
  apply eval_val_of_bound e b h1
  intro s hs
  rw [allBound, List.all_eq_true] at h2
  exact h2 s hs

/-- Witness for C3 at a concrete input. -/
theorem claim3_witness :
    ∃ q, eval (.Add (.Var "x") (.Num 2)) (fun s => if s = "x" then some 5 else none) = .val q :=
  claim3_eval_total_when_bound (.Add (.Var "x") (.Num 2))
    (fun s => if s = "x" then some 5 else none) (by decide) (by decide)

/-- C4, counterexample: a *bare* unbound `Variable` does not raise —
`Var.eval` returns Python `None` (`assignments.get` with a missing
key), and no enclosing `BinOp.eval` exists to turn that into an error. -/
theorem claim4_counterexample :
    eval (.Var "x") (fun _ => none) = .pyNone ∧
    EvalResult.pyNone ≠ .exn .nameError := by
  decide

/-- C4, amended: an unbound variable makes evaluation fail with the
unbound-variable error (`NameError`), propagated through the enclosing
binary operations, whenever the expression *is* a binary operation
(and, to isolate the unbound-name failure, contains no `Div`/`Pow`
whose own arithmetic errors could fire first); a bare unbound
`Variable` instead evaluates to Python `None` without raising. -/
theorem claim4_unbound_variable (e : Expression) (b : String → Option ℚ) (s : String) :
    (noDivPow e = true → isBinOp e = true → hasUnbound e b = true →
      eval e b = .exn .nameError) ∧
    (b s = none → eval (.Var s) b = .pyNone) := by
  constructor
  · intro h1 h2 h3
    rcases eval_status e b h1 h3 with ⟨t, rfl, _⟩ | h
    · simp [isBinOp] at h2
    · exact h
  · intro hb
    simp [eval, hb]

/-- Witness for C4 at a concrete input. -/
theorem claim4_witness :
    eval (.Add (.Var "x") (.Num 1)) (fun _ => none) = .exn .nameError ∧
    eval (.Var "x") (fun _ => none) = .pyNone :=
  ⟨(claim4_unbound_variable (.Add (.Var "x") (.Num 1)) (fun _ => none) "x").1
      (by decide) (by decide) (by decide),
   (claim4_unbound_variable (.Add (.Var "x") (.Num 1)) (fun _ => none) "x").2 rfl⟩

/-! ## The claims about the simplifier -/

/-- C2, counterexample: the `Simplifier` is not total.  Constant
folding of `Div(Number(1), Number(0))` divides by zero, and folding of
`Pow(Number(0), Number(-2))` raises zero to a negative power; both
raise `ZeroDivisionError` instead of returning an expression. -/
theorem claim2_counterexample :
    simplify (.Div (.Num 1) (.Num 0)) = .exn .zeroDivisionError ∧
    simplify (.Pow (.Num 0) (.Num (-2))) = .exn .zeroDivisionError := by
  decide

/-- C2, amended: the simplifier is total on every expression that
contains no `Div` and no `Pow` node; the only failures are the
constant-folding `ZeroDivisionError`s at `Div`/`Pow` nodes exhibited
by the counterexample. -/
theorem claim2_simplify_total_without_div_pow (e : Expression) (h : noDivPow e = true) :
    ∃ e', simplify e = .ok e' :=
  simplify_ok_of_noDivPow e h

/-- Witness for C2 at a concrete input. -/
theorem claim2_witness : ∃ e', simplify (.Add (.Var "x") (.Num 1)) = .ok e' :=
  claim2_simplify_total_without_div_pow (.Add (.Var "x") (.Num 1)) (by decide)

/-- C6, counterexample: `simplify(Pow(e, Number(0)))` is *not*
`Number(1)` for every `e` — `Pow.simplify` simplifies its children
first, so an exception raised while simplifying `e` propagates before
the zero-exponent rule is consulted. -/
theorem claim6_counterexample :
    simplify (.Pow (.Div (.Num 1) (.Num 0)) (.Num 0)) = .exn .zeroDivisionError := by
  decide

/-- C6, amended: `simplify(Mul(e, Number(1)))` and
`simplify(Add(e, Number(0)))` agree with `simplify(e)` for every `e`
(including the exceptional cases, which propagate identically), and
`simplify(Pow(e, Number(0)))` is `Number(1)` whenever `simplify(e)`
returns an expression at all. -/
theorem claim6_identity_elimination (e : Expression) :
    simplify (.Mul e (.Num 1)) = simplify e ∧
    simplify (.Add e (.Num 0)) = simplify e ∧
    ∀ e', simplify e = .ok e' → simplify (.Pow e (.Num 0)) = .ok (.Num 1) := by
  refine ⟨?_, ?_, ?_⟩
  · show simpBin (simplify e) (simplify (.Num 1)) mulRule = simplify e
    cases hs : simplify e with
    | exn k => rfl
    | ok a => simp [simplify, simpBin, mulRule_one]
  · show simpBin (simplify e) (simplify (.Num 0)) addRule = simplify e
    cases hs : simplify e with
    | exn k => rfl
    | ok a => simp [simplify, simpBin, addRule_zero]
  · intro e' h
    show simpBin (simplify e) (simplify (.Num 0)) powRule = .ok (.Num 1)
    rw [h]
    simp [simplify, simpBin, powRule_zero]

/-- Witness for C6 at a concrete input. -/
theorem claim6_witness :
    simplify (.Mul (.Var "x") (.Num 1)) = simplify (.Var "x") ∧
    simplify (.Add (.Var "x") (.Num 0)) = simplify (.Var "x") ∧
    simplify (.Pow (.Var "x") (.Num 0)) = .ok (.Num 1) :=
  ⟨(claim6_identity_elimination (.Var "x")).1,
   (claim6_identity_elimination (.Var "x")).2.1,
   (claim6_identity_elimination (.Var "x")).2.2 (.Var "x") (by decide)⟩

/-- C7: if the left child simplifies to `Number(0)` and the right
child's simplification succeeds, `Div.simplify` returns `Number(0)`
regardless of the right operand — including right operands that also
simplify to zero. -/
theorem claim7_div_zero_left (l r er : Expression)
    (hl : simplify l = .ok (.Num 0)) (hr : simplify r = .ok er) :
    simplify (.Div l r) = .ok (.Num 0) := by
  show simpBin (simplify l) (simplify r) divRule = .ok (.Num 0)
  rw [hl, hr]
  show divRule (.Num 0) er = .ok (.Num 0)
  unfold divRule
  rw [if_pos rfl]

/-- Witness for C7 at the `0 / 0` corner the claim singles out. -/
theorem claim7_witness : simplify (.Div (.Num 0) (.Num 0)) = .ok (.Num 0) :=
  claim7_div_zero_left (.Num 0) (.Num 0) (.Num 0) (by decide) (by decide)

/-- C8: whenever simplification succeeds, the result has at most as
many nodes as the input. -/
theorem claim8_simplify_size_nonincreasing (e e' : Expression) (h : simplify e = .ok e') :
    size e' ≤ size e :=
  simplify_size_le e e' h

/-- Witness for C8 at a concrete input. -/
theorem claim8_witness : size (.Var "x") ≤ size (.Mul (.Var "x") (.Num 1)) :=
  claim8_simplify_size_nonincreasing (.Mul (.Var "x") (.Num 1)) (.Var "x") (by decide)

/-- C9: `Pow.deriv` applies the constant-exponent power rule
unconditionally, also when the exponent mentions the differentiation
variable: `deriv (Pow l r) wrt = Mul (Mul r (Pow l (Sub r (Num 1)))) (deriv l wrt)`. -/
theorem claim9_pow_deriv_power_rule (l r : Expression) (wrt : String) :
    deriv (.Pow l r) wrt = .Mul (.Mul r (.Pow l (.Sub r (.Num 1)))) (deriv l wrt) :=
  rfl

/-! ## Parser lemmas -/

lemma parseExprF_append_mono :
    ∀ (fuel fuel' : Nat) (t rest : List String) (i : Nat) (r : Expression × Nat),
      fuel ≤ fuel' → parseExprF t fuel i = some r → parseExprF (t ++ rest) fuel' i = some r := by
  intro fuel
  induction fuel with
  | zero =>
    intro fuel' t rest i r _ h
    simp [parseExprF] at h
  | succ g ih =>
    intro fuel' t rest i r hle h
    obtain ⟨g', rfl⟩ : ∃ g', fuel' = g' + 1 := ⟨fuel' - 1, by omega⟩
    have hg : g ≤ g' := by omega
    rw [parseExprF] at h ⊢
    cases hget : t.get? i with
    | none =>
      simp only [hget] at h
      exact Option.noConfusion h
    | some token =>
      have hlt : i < t.length := (List.get?_eq_some.mp hget).1
      simp only [hget] at h
      simp only [List.get?_append hlt, hget]
      cases htd : token.data with
      | nil =>
        simp only [htd] at h
        exact Option.noConfusion h
      | cons c0 cs =>
        simp only [htd] at h ⊢
        split_ifs at h ⊢
        · exact h
        · exact h
        · cases hp1 : parseExprF t g (i + 1) with
          | none =>
            simp only [hp1] at h
            exact Option.noConfusion h
          | some lr =>
            obtain ⟨le, oi⟩ := lr
            simp only [hp1] at h
            simp only [ih g' t rest (i + 1) (le, oi) hg hp1]
            cases hop : t.get? oi with
            | none =>
              simp only [hop] at h
              exact Option.noConfusion h
            | some op =>
              have hlt2 : oi < t.length := (List.get?_eq_some.mp hop).1
              simp only [hop] at h
              simp only [List.get?_append hlt2, hop]
              cases hctor : symbolDictOf op with
              | none =>
                simp only [hctor] at h
                exact Option.noConfusion h
              | some ctor =>
                simp only [hctor] at h ⊢
                cases hp2 : parseExprF t g (oi + 1) with
                | none =>
                  simp only [hp2] at h
                  exact Option.noConfusion h
                | some rr =>
                  obtain ⟨re, rp⟩ := rr
                  simp only [hp2] at h
                  simp only [ih g' t rest (oi + 1) (re, rp) hg hp2]
                  exact h

/-! ## The claims about the parser -/

/-- C5, counterexample: `parseExpression("(2 * (5 + 3) ** 1)")` does
*not* attach the `** 1` exponent — the tokenizer drops closing
parentheses, so after parsing `(5 + 3)` the parser returns to the top
level and the remaining `** 1` tokens are trailing garbage it ignores.
The result is `Mul(Number(2), Add(Number(5), Number(3)))`, not the
claimed `Mul(Number(2), Pow(Add(Number(5), Number(3)), Number(1)))`. -/
theorem claim5_counterexample :
    expression "(2 * (5 + 3) ** 1)" = some (.Mul (.Num 2) (.Add (.Num 5) (.Num 3))) ∧
    Expression.Mul (.Num 2) (.Add (.Num 5) (.Num 3))
      ≠ .Mul (.Num 2) (.Pow (.Add (.Num 5) (.Num 3)) (.Num 1)) := by
  decide

/-- C5, amended: with the grammar's full parenthesization —
`"(2 * ((5 + 3) ** 1))"` — the parser does produce the claimed tree
`Mul(Number(2), Pow(Add(Number(5), Number(3)), Number(1)))`, the `**`
token being fused from the two `*` tokens by `expression`. -/
theorem claim5_fully_parenthesized :
    expression "(2 * ((5 + 3) ** 1))"
      = some (.Mul (.Num 2) (.Pow (.Add (.Num 5) (.Num 3)) (.Num 1))) := by
  decide

/-- C10: the parser accepts trailing garbage — whenever a token list
parses, appending any further tokens leaves the result unchanged (the
extra tokens are silently ignored and no error is raised). -/
theorem claim10_trailing_tokens (pre rest : List String) (e : Expression)
    (h : parse pre = some e) : parse (pre ++ rest) = some e := by
  unfold parse at h ⊢
  cases hp : parseExprF pre (pre.length + 1) 0 with
  | none => rw [hp] at h; cases h
  | some r =>
    obtain ⟨e0, i⟩ := r
    rw [hp] at h
    have hmono := parseExprF_append_mono (pre.length + 1) ((pre ++ rest).length + 1)
      pre rest 0 (e0, i) (by simp [List.length_append]) hp
    rw [hmono]
    exact h

/-- Witness for C10: the tokens of `"1 - 2"` parse to `Number(1)`,
discarding `- 2`. -/
theorem claim10_witness : parse ["1", "-", "2"] = some (.Num 1) :=
  claim10_trailing_tokens ["1"] ["-", "2"] (.Num 1) (by decide)

/-! ## Character and string lemmas for the round-trip claim -/

lemma isDigit_toNat {c : Char} (h : c.isDigit = true) :
    48 ≤ c.val.toNat ∧ c.val.toNat ≤ 57 := by
  simp only [Char.isDigit, Bool.and_eq_true, decide_eq_true_eq] at h
  exact ⟨h.1, h.2⟩

lemma isAlpha_toNat {c : Char} (h : c.isAlpha = true) :
    (65 ≤ c.val.toNat ∧ c.val.toNat ≤ 90) ∨ (97 ≤ c.val.toNat ∧ c.val.toNat ≤ 122) := by
  simp only [Char.isAlpha, Char.isUpper, Char.isLower, Bool.or_eq_true, Bool.and_eq_true,
    decide_eq_true_eq] at h
  rcases h with ⟨h1, h2⟩ | ⟨h1, h2⟩
  · exact Or.inl ⟨h1, h2⟩
  · exact Or.inr ⟨h1, h2⟩

lemma isAlpha_not_digit {c : Char} (h : c.isAlpha = true) : c.isDigit = false := by
  have hv := isAlpha_toNat h
  cases hd : c.isDigit with
  | false => rfl
  | true =>
    have := isDigit_toNat hd
    omega

lemma isDigit_ne {c : Char} (h : c.isDigit = true) :
    c ≠ ' ' ∧ c ≠ ')' ∧ c ≠ '-' ∧ c ≠ '(' ∧ c ≠ '*' ∧ c ≠ '|' := by
  refine ⟨?_, ?_, ?_, ?_, ?_, ?_⟩ <;>
    exact fun hc => by subst hc; exact absurd h (by decide)

lemma isAlpha_ne {c : Char} (h : c.isAlpha = true) :
    c ≠ ' ' ∧ c ≠ ')' ∧ c ≠ '-' ∧ c ≠ '.' ∧ c ≠ '(' ∧ c ≠ '*' ∧ c ≠ '|' := by
  refine ⟨?_, ?_, ?_, ?_, ?_, ?_, ?_⟩ <;>
    exact fun hc => by subst hc; exact absurd h (by decide)

lemma data_append (s t : String) : (s ++ t).data = s.data ++ t.data := by
  cases s
  cases t
  rfl

lemma mk_append (s : String) (l : List Char) : s ++ (⟨l⟩ : String) = ⟨s.data ++ l⟩ := by
  cases s
  rfl

lemma push_data (s : String) (c : Char) : s.push c = ⟨s.data ++ [c]⟩ := by
  cases s
  rfl

lemma string_eta (s : String) : (⟨s.data⟩ : String) = s := by
  cases s
  rfl

lemma mk_ne_empty {l : List Char} (h : l ≠ []) : (⟨l⟩ : String) ≠ "" := by
  intro hc
  exact h (congrArg String.data hc)

/-! ## Decimal digit lemmas -/

lemma digitsFuel_eq : ∀ (fuel m : Nat), m ≤ fuel → digitsFuel fuel m = Nat.digits 10 m := by
  intro fuel
  induction fuel with
  | zero =>
    intro m h
    interval_cases m
    simp [digitsFuel]
  | succ g ih =>
    intro m h
    rw [digitsFuel]
    by_cases hm : m = 0
    · subst hm
      simp
    · rw [if_neg hm]
      have hdiv : m / 10 < m := Nat.div_lt_self (Nat.pos_of_ne_zero hm) (by norm_num)
      rw [ih (m / 10) (by omega)]
      rw [Nat.digits_def' (by norm_num : (1:ℕ) < 10) (Nat.pos_of_ne_zero hm)]

lemma digitChar_toNat {d : Nat} (h : d < 10) : (digitChar d).toNat = 48 + d := by
  interval_cases d <;> rfl

lemma digitChar_isDigit {d : Nat} (h : d < 10) : (digitChar d).isDigit = true := by
  interval_cases d <;> decide

lemma digitsValN_append (l : List Char) (c : Char) :
    digitsValN (l ++ [c]) = digitsValN l * 10 + (c.toNat - 48) := by
  simp [digitsValN, List.foldl_append]

lemma digitsValN_digits : ∀ ds : List Nat, (∀ d ∈ ds, d < 10) →
    digitsValN (ds.reverse.map digitChar) = Nat.ofDigits 10 ds := by
  intro ds
  induction ds with
  | nil => intro _; simp [digitsValN, Nat.ofDigits_nil]
  | cons d ds ih =>
    intro h
    rw [List.reverse_cons, List.map_append, List.map_singleton, digitsValN_append]
    rw [ih fun x hx => h x (List.mem_cons_of_mem _ hx)]
    rw [digitChar_toNat (h d (List.mem_cons_self _ _)), Nat.ofDigits_cons]
    omega

lemma natDigitsStr_spec (m : Nat) :
    (natDigitsStr m).data ≠ [] ∧ (∀ c ∈ (natDigitsStr m).data, c.isDigit = true) ∧
    digitsValN (natDigitsStr m).data = m := by
  by_cases hm : m = 0
  · subst hm
    refine ⟨by decide, ?_, by decide⟩
    intro c hc
    simp only [show (natDigitsStr 0).data = ['0'] from rfl, List.mem_singleton] at hc
    subst hc
    decide
  · rw [natDigitsStr, if_neg hm]
    rw [show ((⟨(digitsFuel m m).reverse.map digitChar⟩ : String)).data
        = (digitsFuel m m).reverse.map digitChar from rfl]
    rw [digitsFuel_eq m m le_rfl]
    have hlt : ∀ d ∈ Nat.digits 10 m, d < 10 :=
      fun d hdm => Nat.digits_lt_base (by norm_num) hdm
    refine ⟨?_, ?_, ?_⟩
    · simp [Nat.digits_ne_nil_iff_ne_zero.mpr hm]
    · intro c hc
      simp only [List.mem_map, List.mem_reverse] at hc
      obtain ⟨d, hd1, rfl⟩ := hc
      exact digitChar_isDigit (hlt d hd1)
    · rw [digitsValN_digits _ hlt, Nat.ofDigits_digits]

/-! ## parseFloat on rendered integer literals -/

lemma takeWhile_all_append (p : Char → Bool) :
    ∀ (cs : List Char) (d : Char) (t : List Char), (∀ c ∈ cs, p c = true) → p d = false →
      (cs ++ d :: t).takeWhile p = cs ∧ (cs ++ d :: t).dropWhile p = d :: t := by
  intro cs
  induction cs with
  | nil =>
    intro d t _ hp
    simp [List.takeWhile_cons, List.dropWhile_cons, hp]
  | cons c cs ih =>
    intro d t h hp
    have hc := h c (List.mem_cons_self _ _)
    obtain ⟨iht, ihd⟩ := ih d t (fun x hx => h x (List.mem_cons_of_mem _ hx)) hp
    simp [List.takeWhile_cons, List.dropWhile_cons, hc, iht, ihd]

lemma parseDec_digits (D : List Char) (h1 : D ≠ []) (h2 : ∀ c ∈ D, c.isDigit = true) :
    parseDec (D ++ ['.', '0']) = some ((digitsValN D : ℚ)) := by
  obtain ⟨ht, hd⟩ := takeWhile_all_append Char.isDigit D '.' ['0'] h2 (by decide)
  simp only [parseDec, ht, hd]
  rw [if_pos ⟨by decide, Or.inl h1⟩]
  have hz : digitsValN ['0'] = 0 := by decide
  rw [hz]
  congr 1
  rw [Rat.mkRat_eq_div]
  push_cast
  field_simp

lemma parseFloat_numStr (n : ℤ) : parseFloat (numStr ((n : ℚ))) = some ((n : ℚ)) := by
  have hden : ((n : ℚ)).den = 1 := Rat.den_intCast n
  have hnum : ((n : ℚ)).num = n := Rat.num_intCast n
  rw [numStr, hden, if_pos rfl, hnum]
  by_cases hn : n < 0
  · rw [intStr, if_pos hn]
    obtain ⟨hne, hdig, hval⟩ := natDigitsStr_spec n.natAbs
    have hdata : ("-" ++ natDigitsStr n.natAbs ++ ".0").data
        = '-' :: ((natDigitsStr n.natAbs).data ++ ['.', '0']) := by
      rw [data_append, data_append]
      simp [show ("-").data = ['-'] from rfl, show (".0").data = ['.', '0'] from rfl]
    simp only [parseFloat, hdata]
    rw [if_pos trivial, parseDec_digits _ hne hdig, hval]
    simp only [Option.map_some']
    congr 1
    have habs : ((n.natAbs : ℤ)) = -n := Int.ofNat_natAbs_of_nonpos (le_of_lt hn)
    rw [show ((n.natAbs : ℕ) : ℚ) = ((n.natAbs : ℤ) : ℚ) from (Int.cast_natCast _).symm, habs]
    push_cast
    ring
  · rw [intStr, if_neg hn]
    obtain ⟨hne, hdig, hval⟩ := natDigitsStr_spec n.toNat
    obtain ⟨c, D', hD⟩ : ∃ c D', (natDigitsStr n.toNat).data = c :: D' := by
      cases h : (natDigitsStr n.toNat).data with
      | nil => exact absurd h hne
      | cons c D' => exact ⟨c, D', rfl⟩
    have hcd : c.isDigit = true := hdig c (by rw [hD]; exact List.mem_cons_self _ _)
    have hdata : (natDigitsStr n.toNat ++ ".0").data = c :: (D' ++ ['.', '0']) := by
      rw [data_append, hD]
      simp [show (".0").data = ['.', '0'] from rfl]
    simp only [parseFloat, hdata]
    rw [if_neg (isDigit_ne hcd).2.2.1]
    rw [show c :: (D' ++ ['.', '0']) = (c :: D') ++ ['.', '0'] by simp, ← hD,
      parseDec_digits _ hne hdig, hval]
    congr 1
    exact_mod_cast congrArg (fun z : ℤ => (z : ℚ)) (Int.toNat_of_nonneg (by omega))

/-! ## Tokenizer runs -/

lemma tok_step_num {c : Char} (h : c.isDigit = true ∨ c = '.') (orig rest : List Char)
    (i : Nat) (numAdd : String) (acc : List String) :
    tokCore orig (c :: rest) i numAdd acc = tokCore orig rest (i + 1) (numAdd.push c) acc := by
  have h1 : ¬(c = ' ' ∨ c = ')') := by
    rcases h with hd | rfl
    · rintro (rfl | rfl) <;> exact absurd hd (by decide)
    · decide
  simp only [tokCore]
  rw [if_neg h1, if_pos h]

lemma tok_step_other {c : Char} (h1 : ¬(c = ' ' ∨ c = ')'))
    (h2 : ¬(c.isDigit = true ∨ c = '.')) (h3 : c ≠ '-') (orig rest : List Char)
    (i : Nat) (numAdd : String) (acc : List String) :
    tokCore orig (c :: rest) i numAdd acc
      = tokCore orig rest (i + 1) ""
          ((if numAdd = "" then acc else acc ++ [numAdd]) ++ [⟨[c]⟩]) := by
  simp only [tokCore]
  rw [if_neg h1, if_neg h2, if_neg h3]

lemma tok_step_minus {orig : List Char} {i : Nat} {d : Char} (hd : orig.get? (i + 1) = some d)
    (hdig : d.isDigit = true ∨ d = '.') (rest : List Char) (numAdd : String)
    (acc : List String) :
    tokCore orig ('-' :: rest) i numAdd acc
      = tokCore orig rest (i + 1) (numAdd.push '-') acc := by
  simp only [tokCore]
  rw [if_neg (by decide), if_neg (by decide), if_pos trivial]
  simp only [hd]
  rw [if_pos hdig]

lemma tokCore_num_run (orig : List Char) :
    ∀ (cs rest : List Char) (i : Nat) (numAdd : String) (acc : List String),
      (∀ c ∈ cs, c.isDigit = true ∨ c = '.') →
      tokCore orig (cs ++ rest) i numAdd acc
        = tokCore orig rest (i + cs.length) (⟨numAdd.data ++ cs⟩ : String) acc := by
  intro cs
  induction cs with
  | nil =>
    intro rest i numAdd acc _
    simp [string_eta]
  | cons c cs ih =>
    intro rest i numAdd acc h
    rw [List.cons_append, tok_step_num (h c (List.mem_cons_self _ _))]
    rw [ih rest (i + 1) (numAdd.push c) acc fun x hx => h x (List.mem_cons_of_mem _ hx)]
    congr 1
    · simp only [List.length_cons]
      omega
    · have hp : (numAdd.push c).data = numAdd.data ++ [c] := by
        cases numAdd
        rfl
      rw [hp, List.append_assoc, List.singleton_append]

lemma tokCore_sentinel (orig : List Char) (i : Nat) (numAdd : String) (acc : List String) :
    tokCore orig ['|'] i numAdd acc
      = some ((if numAdd = "" then acc else acc ++ [numAdd]) ++ ["|"]) := by
  rw [show (['|'] : List Char) = '|' :: [] from rfl]
  rw [tok_step_other (by decide) (by decide) (by decide)]
  rfl

lemma caseTok_pair (s : String) (h : s ≠ "") : caseTok [s, "|"] = some [s] := by
  show some (if s = "" then ([] : List String) else [s]) = some [s]
  rw [if_neg h]

lemma tokenize_all_num (s : String) (hne : s.data ≠ [])
    (h : ∀ c ∈ s.data, c.isDigit = true ∨ c = '.') : tokenize s = some [s] := by
  have hse : s ≠ "" := by
    intro hs
    rw [hs] at hne
    exact hne rfl
  rw [tokenize, tokCore_num_run s.data s.data ['|'] 0 "" [] h]
  rw [show (⟨("" : String).data ++ s.data⟩ : String) = s from by
    rw [show ("" : String).data = [] from rfl, List.nil_append, string_eta]]
  rw [tokCore_sentinel, if_neg hse]
  show caseTok [s, "|"] = some [s]
  exact caseTok_pair s hse

lemma tokenize_minus_num (s : String) (d : Char) (rest : List Char)
    (hdata : s.data = '-' :: d :: rest) (hd : d.isDigit = true)
    (hrest : ∀ c ∈ d :: rest, c.isDigit = true ∨ c = '.') : tokenize s = some [s] := by
  have hse : s ≠ "" := by
    intro hs
    rw [hs] at hdata
    exact List.noConfusion hdata
  rw [tokenize, hdata, List.cons_append]
  rw [tok_step_minus (show ('-' :: d :: rest).get? (0 + 1) = some d from rfl) (Or.inl hd)]
  rw [tokCore_num_run _ (d :: rest) ['|'] (0 + 1) _ [] hrest]
  rw [show (⟨(("" : String).push '-').data ++ d :: rest⟩ : String) = s from by
    rw [show (("" : String).push '-').data = ['-'] from rfl, List.singleton_append, ← hdata,
      string_eta]]
  rw [tokCore_sentinel, if_neg hse]
  show caseTok [s, "|"] = some [s]
  exact caseTok_pair s hse

lemma mergeStars_single (s : String) (h : s ≠ "*") : mergeStars [s] = some [s] := by
  rw [mergeStars]
  rw [show ([s] : List String).length = 0 + 1 from rfl]
  rw [mergeGo]
  simp only [show ([s] : List String).get? 0 = some s from rfl, if_neg h]
  rfl

/-! ## Parsing a single leaf token -/

lemma parse_single_num_token (s : String) (c0 : Char) (cs : List Char)
    (hdata : s.data = c0 :: cs) (hcond : c0 = '-' ∨ c0.isDigit = true ∨ c0 = '.')
    (q : ℚ) (hq : parseFloat s = some q) : parse [s] = some (.Num q) := by
  rw [parse]
  have h2 : parseExprF [s] ([s].length + 1) 0 = some (.Num q, 1) := by
    rw [parseExprF]
    simp only [show ([s] : List String).get? 0 = some s from rfl]
    simp only [hdata]
    rw [if_pos hcond]
    simp only [hq]
  rw [h2]

lemma parse_single_alpha (c : Char) (h : c.isAlpha = true) :
    parse [(⟨[c]⟩ : String)] = some (.Var ⟨[c]⟩) := by
  obtain ⟨hsp, hrp, hmi, hdot, _, _, _⟩ := isAlpha_ne h
  rw [parse]
  have h2 : parseExprF [(⟨[c]⟩ : String)] ([(⟨[c]⟩ : String)].length + 1) 0
      = some (.Var ⟨[c]⟩, 1) := by
    rw [parseExprF]
    simp only [show ([(⟨[c]⟩ : String)] : List String).get? 0 = some (⟨[c]⟩ : String) from rfl]
    try simp only [show ((⟨[c]⟩ : String)).data = [c] from rfl]
    rw [if_neg (by
      rintro (rfl | hd | rfl)
      · exact hmi rfl
      · rw [isAlpha_not_digit h] at hd
        exact Bool.noConfusion hd
      · exact hdot rfl)]
    rw [if_pos (by simp [show ((⟨[c]⟩ : String)).data = [c] from rfl, h])]
  rw [h2]

/-! ## The round-trip claim -/

lemma numStr_int_cases (n : ℤ) :
    (numStr ((n : ℚ))) = intStr n ++ ".0" := by
  rw [numStr, Rat.den_intCast, if_pos rfl, Rat.num_intCast]

lemma numStr_ne_star (n : ℤ) : numStr ((n : ℚ)) ≠ "*" := by
  rw [numStr_int_cases]
  intro hc
  have hdc := congrArg String.data hc
  rw [data_append, show (".0").data = ['.', '0'] from rfl,
    show ("*").data = ['*'] from rfl] at hdc
  have := congrArg List.length hdc
  simp at this

lemma tokenize_numStr (n : ℤ) : tokenize (numStr ((n : ℚ))) = some [numStr ((n : ℚ))] := by
  rw [numStr_int_cases]
  by_cases hn : n < 0
  · rw [intStr, if_pos hn]
    obtain ⟨hne, hdig, _⟩ := natDigitsStr_spec n.natAbs
    obtain ⟨d, D', hD⟩ : ∃ d D', (natDigitsStr n.natAbs).data = d :: D' := by
      cases hh : (natDigitsStr n.natAbs).data with
      | nil => exact absurd hh hne
      | cons d D' => exact ⟨d, D', rfl⟩
    apply tokenize_minus_num _ d (D' ++ ['.', '0'])
    · rw [data_append, data_append, hD]
      simp [show ("-").data = ['-'] from rfl, show (".0").data = ['.', '0'] from rfl]
    · exact hdig d (by rw [hD]; exact List.mem_cons_self _ _)
    · intro c hc
      rw [show d :: (D' ++ ['.', '0']) = (d :: D') ++ ['.', '0'] from by simp, ← hD] at hc
      rcases List.mem_append.mp hc with hc | hc
      · exact Or.inl (hdig c hc)
      · simp only [List.mem_cons, List.mem_singleton, List.not_mem_nil, or_false] at hc
        rcases hc with rfl | rfl
        · exact Or.inr rfl
        · exact Or.inl (by decide)
  · rw [intStr, if_neg hn]
    obtain ⟨hne, hdig, _⟩ := natDigitsStr_spec n.toNat
    apply tokenize_all_num
    · rw [data_append]
      intro hc
      exact hne (List.append_eq_nil.mp hc).1
    · intro c hc
      rw [data_append, show (".0").data = ['.', '0'] from rfl] at hc
      rcases List.mem_append.mp hc with hc | hc
      · exact Or.inl (hdig c hc)
      · simp only [List.mem_cons, List.mem_singleton, List.not_mem_nil, or_false] at hc
        rcases hc with rfl | rfl
        · exact Or.inr rfl
        · exact Or.inl (by decide)

lemma parse_numStr (n : ℤ) : parse [numStr ((n : ℚ))] = some (.Num ((n : ℚ))) := by
  have hq := parseFloat_numStr n
  rw [numStr_int_cases] at hq ⊢
  by_cases hn : n < 0
  · rw [intStr, if_pos hn] at hq ⊢
    obtain ⟨hne, hdig, _⟩ := natDigitsStr_spec n.natAbs
    refine parse_single_num_token _ '-' ((natDigitsStr n.natAbs).data ++ ['.', '0']) ?_
      (Or.inl rfl) _ hq
    rw [data_append, data_append]
    simp [show ("-").data = ['-'] from rfl, show (".0").data = ['.', '0'] from rfl]
  · rw [intStr, if_neg hn] at hq ⊢
    obtain ⟨hne, hdig, _⟩ := natDigitsStr_spec n.toNat
    obtain ⟨d, D', hD⟩ : ∃ d D', (natDigitsStr n.toNat).data = d :: D' := by
      cases hh : (natDigitsStr n.toNat).data with
      | nil => exact absurd hh hne
      | cons d D' => exact ⟨d, D', rfl⟩
    have hd : d.isDigit = true := hdig d (by rw [hD]; exact List.mem_cons_self _ _)
    refine parse_single_num_token _ d (D' ++ ['.', '0']) ?_ (Or.inr (Or.inl hd)) _ hq
    rw [data_append, hD]
    simp [show (".0").data = ['.', '0'] from rfl]

lemma tokenize_singleton_alpha (c : Char) (h : c.isAlpha = true) :
    tokenize (⟨[c]⟩ : String) = some [(⟨[c]⟩ : String)] := by
  obtain ⟨hsp, hrp, hmi, hdot, _, _, _⟩ := isAlpha_ne h
  rw [tokenize]
  rw [show ((⟨[c]⟩ : String)).data = [c] from rfl, List.cons_append, List.nil_append]
  rw [tok_step_other
    (by rintro (rfl | rfl); exacts [hsp rfl, hrp rfl])
    (by
      rintro (hd | rfl)
      · rw [isAlpha_not_digit h] at hd
        exact Bool.noConfusion hd
      · exact hdot rfl)
    hmi]
  rw [if_pos rfl, List.nil_append]
  rw [tokCore_sentinel, if_pos rfl]
  show caseTok [(⟨[c]⟩ : String), "|"] = some [(⟨[c]⟩ : String)]
  exact caseTok_pair _ (mk_ne_empty (by simp))

/-- C1, counterexample: the round-trip fails for a tree whose root is
a binary operation.  `Add(Number(1), Number(2))` renders as
`"1.0 + 2.0"` (no outer parentheses), and the fully-parenthesized
grammar's parser then consumes only the leading `1.0`, ignoring the
rest: the re-parsed tree is `Number(1)`, not the original tree. -/
theorem claim1_counterexample :
    expression (render (.Add (.Num 1) (.Num 2))) = some (.Num 1) ∧
    Expression.Num 1 ≠ .Add (.Num 1) (.Num 2) := by
  decide

/-- C1, amended: the round-trip `parseExpression(render(e)) = e` holds
for the leaf trees — a `Number` with an integer value and a `Variable`
with a single-letter name — but not for every tree: the renderer omits
the outer parentheses (and the parentheses around equal-precedence
children) that the fully parenthesized grammar requires, so any tree
whose root is a binary operation re-parses to just its leading
subexpression (see the counterexample), and the tokenizer splits a
multi-letter variable name into one token per letter. -/
theorem claim1_round_trip_leaves (n : ℤ) (c : Char) (h : c.isAlpha = true) :
    expression (render (.Num ((n : ℚ)))) = some (.Num ((n : ℚ))) ∧
    expression (render (.Var ⟨[c]⟩)) = some (.Var ⟨[c]⟩) := by
  constructor
  · show expression (numStr ((n : ℚ))) = some (.Num ((n : ℚ)))
    rw [expression]
    simp only [tokenize_numStr n, mergeStars_single _ (numStr_ne_star n)]
    exact parse_numStr n
  · show expression (⟨[c]⟩ : String) = some (.Var ⟨[c]⟩)
    have hstar : (⟨[c]⟩ : String) ≠ "*" := by
      intro hc
      have := congrArg String.data hc
      rw [show ("*").data = ['*'] from rfl] at this
      simp only [show ((⟨[c]⟩ : String)).data = [c] from rfl, List.cons.injEq] at this
      exact (isAlpha_ne h).2.2.2.2.2.1 this.1
    rw [expression]
    simp only [tokenize_singleton_alpha c h, mergeStars_single _ hstar]
    exact parse_single_alpha c h

/-- Witness for C1 at concrete leaves. -/
theorem claim1_witness :
    expression (render (.Num (((-12 : ℤ) : ℚ)))) = some (.Num (((-12 : ℤ) : ℚ))) ∧
    expression (render (.Var ⟨['x']⟩)) = some (.Var ⟨['x']⟩) :=
  claim1_round_trip_leaves (-12) 'x' (by decide)

end SymbolicAlgebra
